import Mathlib

/-!
Verification of the nihstro bit-field abstraction (`include/nihstro/bit_field.h`)
and the shader binary layout records (`include/nihstro/shader_binary.h`).

The C++ `BitField<position, bits, T>` template is embedded shallowly: the
storage word of bit-size `n = 8 * sizeof(T)` is modelled by its n-bit pattern,
a natural number; signed reads are modelled by interpreting patterns in two's
complement (`toSigned`) and arithmetic right shift by floor division.
-/

namespace BitField

/-- `GetMask()` from bit_field.h: `((~(StorageTypeU)0) >> (8*sizeof(T)-bits)) << position`.
`~(StorageTypeU)0` is the all-ones n-bit word `2^n - 1`. -/
def GetMask (n position bits : Nat) : Nat :=
  ((2 ^ n - 1) >>> (n - bits)) <<< position

/-- `Assign(value)` from bit_field.h:
`storage = (storage & ~GetMask()) | (((StorageType)value << position) & GetMask())`.
`~GetMask()` is complement within the n-bit word; the left shift wraps mod `2^n`. -/
def Assign (n position bits storage value : Nat) : Nat :=
  (storage &&& ((2 ^ n - 1) ^^^ GetMask n position bits)) |||
    (((value <<< position) % 2 ^ n) &&& GetMask n position bits)

/-- `Value()` from bit_field.h, unsigned branch: `(storage & GetMask()) >> position`. -/
def Value (n position bits storage : Nat) : Nat :=
  (storage &&& GetMask n position bits) >>> position

/-- Two's-complement reading of an n-bit pattern. -/
def toSigned (n v : Nat) : Int :=
  if v < 2 ^ (n - 1) then (v : Int) else (v : Int) - 2 ^ n

/-- n-bit two's-complement pattern of an integer (the effect of casting to the
n-bit storage type in C). -/
def toUnsigned (n : Nat) (v : Int) : Nat :=
  (v % (2 ^ n : Int)).toNat

/-- `Value()` from bit_field.h, signed branch:
`shift = 8*sizeof(T) - bits; (T)(((storage & GetMask()) << (shift - position)) >> shift)`.
The left shift happens on the n-bit pattern (wrapping), the right shift is the
arithmetic shift of the signed storage value, i.e. floor division by `2^shift`. -/
def ValueS (n position bits storage : Nat) : Int :=
  Int.fdiv
    (toSigned n (((storage &&& GetMask n position bits) <<< (n - bits - position)) % 2 ^ n))
    (2 ^ (n - bits))

/-- `Assign(value)` for a signed value type: the cast `(StorageType)value` stores
the n-bit two's-complement pattern, then proceeds as the unsigned `Assign`. -/
def AssignS (n position bits : Nat) (storage : Nat) (value : Int) : Nat :=
  Assign n position bits storage (toUnsigned n value)

theorem two_pow_sub_one_shiftRight (n k : Nat) (h : k ≤ n) :
    (2 ^ n - 1) >>> k = 2 ^ (n - k) - 1 := by
  apply Nat.eq_of_testBit_eq
  intro i
  simp [Nat.testBit_shiftRight, Nat.testBit_two_pow_sub_one]
  omega

theorem getMask_eq (n position bits : Nat) (h : bits ≤ n) :
    GetMask n position bits = (2 ^ bits - 1) <<< position := by
  unfold GetMask
  rw [two_pow_sub_one_shiftRight n (n - bits) (by omega), Nat.sub_sub_self h]

theorem testBit_getMask (n position bits : Nat) (h : bits ≤ n) (i : Nat) :
    (GetMask n position bits).testBit i =
      (decide (position ≤ i) && decide (i < position + bits)) := by
  rw [getMask_eq n position bits h]
  simp [Nat.testBit_shiftLeft, Nat.testBit_two_pow_sub_one]
  by_cases h1 : position ≤ i <;> by_cases h2 : i < position + bits <;> simp [h1, h2] <;> omega

theorem testBit_assign (n position bits storage value : Nat)
    (hpb : position + bits ≤ n) (hs : storage < 2 ^ n) (i : Nat) :
    (Assign n position bits storage value).testBit i =
      if position ≤ i ∧ i < position + bits then value.testBit (i - position)
      else storage.testBit i := by
  have hb : bits ≤ n := by omega
  unfold Assign
  simp only [Nat.testBit_or, Nat.testBit_and, Nat.testBit_xor,
    Nat.testBit_mod_two_pow, Nat.testBit_shiftLeft, Nat.testBit_two_pow_sub_one,
    testBit_getMask n position bits hb]
  by_cases hin : i < n
  · by_cases hp : position ≤ i <;> by_cases hq : i < position + bits <;>
      simp [hp, hq, hin]
  · have hsb : storage.testBit i = false :=
      Nat.testBit_lt_two_pow (Nat.lt_of_lt_of_le hs (Nat.pow_le_pow_right (by omega) (by omega)))
    have hq : ¬(i < position + bits) := by omega
    simp [hq, hin, hsb]

theorem value_eq_shift_and (n position bits storage : Nat) (h : bits ≤ n) :
    Value n position bits storage = (storage >>> position) &&& (2 ^ bits - 1) := by
  apply Nat.eq_of_testBit_eq
  intro i
  unfold Value
  simp [Nat.testBit_shiftRight, Nat.testBit_and, Nat.testBit_two_pow_sub_one,
    testBit_getMask n position bits h]
  by_cases h2 : i < bits <;> simp [h2]

theorem value_lt (n position bits storage : Nat) (h : bits ≤ n) :
    Value n position bits storage < 2 ^ bits := by
  rw [value_eq_shift_and n position bits storage h]
  exact Nat.and_lt_two_pow _ (by have := Nat.pos_pow_of_pos bits (show 0 < 2 by omega); omega)

theorem value_assign (n position bits storage value : Nat)
    (hb : 0 < bits) (hpb : position + bits ≤ n) (hs : storage < 2 ^ n) :
    Value n position bits (Assign n position bits storage value) = value % 2 ^ bits := by
  rw [value_eq_shift_and n position bits _ (by omega)]
  apply Nat.eq_of_testBit_eq
  intro i
  simp only [Nat.testBit_shiftRight, Nat.testBit_and, Nat.testBit_two_pow_sub_one,
    Nat.testBit_mod_two_pow]
  rw [testBit_assign n position bits storage value hpb hs (position + i)]
  by_cases h2 : i < bits
  · simp [h2, show position ≤ position + i by omega, show position + i < position + bits by omega]
  · simp [h2]

theorem value_assign_frame (n p b p2 b2 s v : Nat)
    (h1 : p + b ≤ n) (h2 : b2 ≤ n) (hs : s < 2 ^ n)
    (hdisj : p + b ≤ p2 ∨ p2 + b2 ≤ p) :
    Value n p2 b2 (Assign n p b s v) = Value n p2 b2 s := by
  rw [value_eq_shift_and n p2 b2 _ h2, value_eq_shift_and n p2 b2 s h2]
  apply Nat.eq_of_testBit_eq
  intro i
  simp only [Nat.testBit_and, Nat.testBit_shiftRight, Nat.testBit_two_pow_sub_one]
  by_cases hi : i < b2
  · rw [testBit_assign n p b s v h1 hs (p2 + i), if_neg (by omega)]
  · simp [hi]

theorem land_getMask (n p b s : Nat) (h : b ≤ n) :
    s &&& GetMask n p b = (Value n p b s) <<< p := by
  apply Nat.eq_of_testBit_eq
  intro i
  rw [value_eq_shift_and n p b s h]
  simp only [Nat.testBit_and, Nat.testBit_shiftLeft, Nat.testBit_shiftRight,
    Nat.testBit_two_pow_sub_one, testBit_getMask n p b h]
  by_cases hp : p ≤ i
  · have hpi : p + (i - p) = i := by omega
    by_cases h2 : i < p + b <;> simp [hp, h2, hpi] <;> omega
  · simp [hp]

theorem valueS_eq_toSigned (n p b s : Nat) (hb : 0 < b) (hpb : p + b ≤ n) :
    ValueS n p b s = toSigned b (Value n p b s) := by
  have hf : Value n p b s < 2 ^ b := value_lt n p b s (by omega)
  have hshift : ((s &&& GetMask n p b) <<< (n - b - p)) % 2 ^ n
      = (Value n p b s) <<< (n - b) := by
    rw [land_getMask n p b s (by omega), ← Nat.shiftLeft_add,
      show p + (n - b - p) = n - b by omega]
    apply Nat.mod_eq_of_lt
    rw [Nat.shiftLeft_eq]
    calc Value n p b s * 2 ^ (n - b) < 2 ^ b * 2 ^ (n - b) :=
          (Nat.mul_lt_mul_right (Nat.pos_pow_of_pos _ (by omega))).mpr hf
      _ = 2 ^ n := by rw [← pow_add]; congr 1; omega
  unfold ValueS
  rw [hshift]
  set f := Value n p b s with hfdef
  have hnb : (2:Int) ^ (n - b) ≠ 0 := by positivity
  have hsplit : (2:Nat) ^ (n - 1) = 2 ^ (b - 1) * 2 ^ (n - b) := by
    rw [← pow_add]; congr 1; omega
  have hsplit2 : (2:Nat) ^ n = 2 ^ b * 2 ^ (n - b) := by
    rw [← pow_add]; congr 1; omega
  unfold toSigned
  rw [Nat.shiftLeft_eq]
  by_cases hc : f < 2 ^ (b - 1)
  · have hlt : f * 2 ^ (n - b) < 2 ^ (n - 1) := by
      rw [hsplit]
      exact (Nat.mul_lt_mul_right (Nat.pos_pow_of_pos _ (by omega))).mpr hc
    rw [if_pos hlt, if_pos hc]
    push_cast
    exact Int.mul_fdiv_cancel _ hnb
  · have hge : ¬(f * 2 ^ (n - b) < 2 ^ (n - 1)) := by
      rw [hsplit]
      intro hcon
      exact hc (Nat.lt_of_mul_lt_mul_right hcon)
    rw [if_neg hge, if_neg hc]
    have heq : ((f : Int) * 2 ^ (n - b) - 2 ^ n) = ((f : Int) - 2 ^ b) * 2 ^ (n - b) := by
      have : ((2:Int) ^ n) = 2 ^ b * 2 ^ (n - b) := by exact_mod_cast hsplit2
      rw [this]; ring
    push_cast
    rw [heq, Int.mul_fdiv_cancel _ hnb]

theorem toUnsigned_mod (n b : Nat) (v : Int) (h : b ≤ n) :
    toUnsigned n v % 2 ^ b = toUnsigned b v := by
  unfold toUnsigned
  have h0 : (0:Int) ≤ v % 2 ^ n := Int.emod_nonneg v (by positivity)
  obtain ⟨k, hk⟩ := Int.eq_ofNat_of_zero_le h0
  have hdvd : ((2:Int) ^ b) ∣ ((2:Int) ^ n) := pow_dvd_pow 2 h
  have hvb : v % 2 ^ b = (k : Int) % 2 ^ b := by
    rw [← Int.emod_emod_of_dvd v hdvd, hk]
  have hcast : ((k : Int) % 2 ^ b) = ((k % 2 ^ b : Nat) : Int) := by push_cast; ring
  rw [hk, hvb, hcast, Int.toNat_ofNat, Int.toNat_ofNat]

theorem toSigned_toUnsigned (b : Nat) (v : Int) (hb : 0 < b)
    (hlo : -(2 ^ (b - 1)) ≤ v) (hhi : v < 2 ^ (b - 1)) :
    toSigned b (toUnsigned b v) = v := by
  have hsplit : (2:Int) ^ b = 2 ^ (b - 1) * 2 := by
    rw [← pow_succ]; congr 1; omega
  have hposb : (0:Int) < 2 ^ b := by positivity
  have hposb1 : (0:Int) < 2 ^ (b - 1) := by positivity
  unfold toUnsigned toSigned
  by_cases hv : 0 ≤ v
  · have hmod : v % 2 ^ b = v := Int.emod_eq_of_lt hv (by omega)
    rw [hmod]
    have htn : ((v.toNat : Int)) = v := Int.toNat_of_nonneg hv
    have hcond : v.toNat < 2 ^ (b - 1) := by
      have : ((v.toNat : Int)) < ((2 ^ (b - 1) : Nat) : Int) := by push_cast; omega
      exact_mod_cast this
    rw [if_pos hcond, htn]
  · have hv' : v < 0 := by omega
    have hmod : v % 2 ^ b = v + 2 ^ b := by
      have h1 : (v + 2 ^ b) % 2 ^ b = v % 2 ^ b := by
        have := Int.add_mul_emod_self_left v (2 ^ b) 1
        simpa using this
      have h2 : (v + 2 ^ b) % 2 ^ b = v + 2 ^ b :=
        Int.emod_eq_of_lt (by omega) (by omega)
      omega
    rw [hmod]
    have hnn : (0:Int) ≤ v + 2 ^ b := by omega
    have htn : (((v + 2 ^ b).toNat : Int)) = v + 2 ^ b := Int.toNat_of_nonneg hnn
    have hcond : ¬((v + 2 ^ b).toNat < 2 ^ (b - 1)) := by
      intro hcon
      have : (((v + 2 ^ b).toNat : Int)) < ((2 ^ (b - 1) : Nat) : Int) := by exact_mod_cast hcon
      rw [htn] at this
      push_cast at this
      omega
    rw [if_neg hcond, htn]
    ring

theorem value_sub (n p b b2 s : Nat) (h : b2 ≤ b) (hb : b ≤ n) :
    Value n p b2 s = Value n p b s % 2 ^ b2 := by
  rw [value_eq_shift_and n p b2 s (by omega), value_eq_shift_and n p b s hb]
  apply Nat.eq_of_testBit_eq
  intro i
  simp only [Nat.testBit_and, Nat.testBit_mod_two_pow, Nat.testBit_two_pow_sub_one]
  by_cases h2 : i < b2
  · simp [h2, show i < b by omega]
  · simp [h2]

theorem valueS_assignS (n p b s : Nat) (v : Int)
    (hb : 0 < b) (hpb : p + b ≤ n) (hs : s < 2 ^ n)
    (hlo : -(2 ^ (b - 1)) ≤ v) (hhi : v < 2 ^ (b - 1)) :
    ValueS n p b (AssignS n p b s v) = v := by
  unfold AssignS
  rw [valueS_eq_toSigned n p b _ hb hpb,
    value_assign n p b s _ hb hpb hs,
    toUnsigned_mod n b v (by omega),
    toSigned_toUnsigned b v hb hlo hhi]

end BitField

/-- Register classes returned by the uniform-table classifier. The
`RegisterType` enumeration itself is declared in `shader_bytecode.h`; the five
constructors here are exactly the ones `UniformInfo::Basic` uses. -/
inductive RegisterType
  | Input
  | FloatUniform
  | IntUniform
  | BoolUniform
  | Unknown
deriving DecidableEq

namespace UniformInfo

namespace Basic

/-- `UniformInfo::Basic::GetType` from shader_binary.h. -/
def GetType (reg : Nat) : RegisterType :=
  if reg < 0x10 then RegisterType.Input
  else if reg < 0x70 then RegisterType.FloatUniform
  else if reg < 0x74 then RegisterType.IntUniform
  else if 0x78 ≤ reg ∧ reg < 0x88 then RegisterType.BoolUniform
  else RegisterType.Unknown

/-- `UniformInfo::Basic::GetIndex` from shader_binary.h. In every branch
reached, the `uint32_t` subtraction cannot underflow, so it equals the
integer subtraction. -/
def GetIndex (reg : Nat) : Int :=
  match GetType reg with
  | RegisterType.Input => (reg : Int)
  | RegisterType.FloatUniform => (reg : Int) - 0x10
  | RegisterType.IntUniform => (reg : Int) - 0x70
  | RegisterType.BoolUniform => (reg : Int) - 0x78
  | RegisterType.Unknown => -1

end Basic

end UniformInfo

namespace OutputRegisterInfo

/-- `OutputRegisterInfo::GetSemanticName` from shader_binary.h: lookup of the
16-bit `type` field value in the fixed semantic map, `"out.unk"` when the
value is not a key of the map. -/
def GetSemanticName (ty : Nat) : String :=
  if ty = 0 then "out.pos"
  else if ty = 1 then "out.quat"
  else if ty = 2 then "out.col"
  else if ty = 3 then "out.tex0"
  else if ty = 4 then "out.texw"
  else if ty = 5 then "out.tex1"
  else if ty = 6 then "out.tex2"
  else if ty = 8 then "out.view"
  else "out.unk"

/-- `OutputRegisterInfo::GetMask` from shader_binary.h: appends `"x"`, `"y"`,
`"z"`, `"w"` in that order, one for each set bit of the 4-bit component mask. -/
def GetMask (mask : Nat) : String :=
  (if mask &&& 1 ≠ 0 then "x" else "") ++
  (if mask &&& 2 ≠ 0 then "y" else "") ++
  (if mask &&& 4 ≠ 0 then "z" else "") ++
  (if mask &&& 8 ≠ 0 then "w" else "")

/-- Spec-side statement of the component-mask rendering: the letters among
x,y,z,w whose bits (bit 0 = x through bit 3 = w) are set, in that fixed
order. -/
def maskLettersSpec (mask : Nat) : String :=
  String.join (((List.range 4).filter (fun i => mask.testBit i)).map
    (fun i => ([ "x", "y", "z", "w" ] : List String).getD i ""))

/-- The `component_mask` view of the output-register entry:
`BitField<32, 4, uint64_t>` over the 64-bit `hex` word. -/
def component_mask (hex : Nat) : Nat := BitField.Value 64 32 4 hex

/-- The `descriptor` view of the output-register entry:
`BitField<32, 32, uint64_t>` over the 64-bit `hex` word. -/
def descriptor (hex : Nat) : Nat := BitField.Value 64 32 32 hex

/-- `component_mask.Assign` on the shared 64-bit word. -/
def assignComponentMask (hex v : Nat) : Nat := BitField.Assign 64 32 4 hex v

/-- `descriptor.Assign` on the shared 64-bit word. -/
def assignDescriptor (hex v : Nat) : Nat := BitField.Assign 64 32 32 hex v

end OutputRegisterInfo

/-- Byte sizes of the members of `DVLBHeader` in declaration order
(`magic_word`, `num_programs`, both `uint32_t`); `#pragma pack(1)` lays the
struct out with no padding. -/
def DVLBHeader.fieldSizes : List Nat := [4, 4]

/-- Byte sizes of the members of `DVLPHeader` in declaration order
(seven `uint32_t` members). -/
def DVLPHeader.fieldSizes : List Nat := [4, 4, 4, 4, 4, 4, 4]

/-- Byte sizes of the members of `DVLEHeader` in declaration order:
`magic_word:u32, pad1:u16, type:u8, pad2:u8, main_offset_words:u32,
endmain_offset_words:u32, pad3:u32, pad4:u32`, then ten `uint32_t`
offset/size members for the five tables. -/
def DVLEHeader.fieldSizes : List Nat :=
  [4, 2, 1, 1, 4, 4, 4, 4, 4, 4, 4, 4, 4, 4, 4, 4, 4, 4]

/-- Size of a `#pragma pack(1)` struct: the sum of its member sizes. -/
def packedSize (fields : List Nat) : Nat := fields.sum

/-- C1: for every valid BitField instantiation `(offset, width, T)` with
`offset + width ≤ bit-size(T)`, and every value representable in `width` bits
(unsigned: `v < 2^width`; signed: `-2^(width-1) ≤ v < 2^(width-1)`),
`Assign(v)` followed by `Value()` returns `v`. -/
theorem claim_C1_assign_value_roundtrip (n position bits : Nat)
    (hb : 0 < bits) (hpb : position + bits ≤ n) :
    (∀ storage v, storage < 2 ^ n → v < 2 ^ bits →
      BitField.Value n position bits (BitField.Assign n position bits storage v) = v) ∧
    (∀ storage (v : Int), storage < 2 ^ n →
      -(2 ^ (bits - 1)) ≤ v → v < 2 ^ (bits - 1) →
      BitField.ValueS n position bits (BitField.AssignS n position bits storage v) = v) := by
  constructor
  · intro s v hs hv
    rw [BitField.value_assign n position bits s v hb hpb hs, Nat.mod_eq_of_lt hv]
  · intro s v hs hlo hhi
    exact BitField.valueS_assignS n position bits s v hb hpb hs hlo hhi

/-- Witness for C1 at the 32-bit field `BitField<3, 4, T>` on storage
`0xABCD`: unsigned value 11 and signed value -3 both round-trip. -/
theorem claim_C1_witness :
    BitField.Value 32 3 4 (BitField.Assign 32 3 4 0xABCD 11) = 11 ∧
    BitField.ValueS 32 3 4 (BitField.AssignS 32 3 4 0xABCD (-3)) = -3 :=
  ⟨(claim_C1_assign_value_roundtrip 32 3 4 (by decide) (by decide)).1 0xABCD 11
      (by decide) (by decide),
   (claim_C1_assign_value_roundtrip 32 3 4 (by decide) (by decide)).2 0xABCD (-3)
      (by decide) (by decide) (by decide)⟩

/-- C2: `Assign` leaves every bit of the storage word outside
`[offset, offset+width)` unchanged; consequently, for two views aliased over
the same word with disjoint bit ranges, assigning one leaves the other's
`Value()` unchanged. -/
theorem claim_C2_assign_frame (n p b : Nat)
    (hb : 0 < b) (hpb : p + b ≤ n) :
    (∀ s v i, s < 2 ^ n → (i < p ∨ p + b ≤ i) →
      (BitField.Assign n p b s v).testBit i = s.testBit i) ∧
    (∀ s v p2 b2, s < 2 ^ n → 0 < b2 → p2 + b2 ≤ n →
      (p + b ≤ p2 ∨ p2 + b2 ≤ p) →
      BitField.Value n p2 b2 (BitField.Assign n p b s v) =
        BitField.Value n p2 b2 s) := by
  constructor
  · intro s v i hs hi
    rw [BitField.testBit_assign n p b s v hpb hs i, if_neg (by omega)]
  · intro s v p2 b2 hs hb2 hp2 hdisj
    exact BitField.value_assign_frame n p b p2 b2 s v hpb (by omega) hs hdisj

/-- Witness for C2: assigning the low byte of a 32-bit word neither changes
bit 9 nor the aliased view over bits [8, 16). -/
theorem claim_C2_witness :
    (BitField.Assign 32 0 8 0xFFFF 0xAB).testBit 9 = (0xFFFF : Nat).testBit 9 ∧
    BitField.Value 32 8 8 (BitField.Assign 32 0 8 0xFFFF 0xAB) =
      BitField.Value 32 8 8 0xFFFF :=
  ⟨(claim_C2_assign_frame 32 0 8 (by decide) (by decide)).1 0xFFFF 0xAB 9
      (by decide) (Or.inr (by decide)),
   (claim_C2_assign_frame 32 0 8 (by decide) (by decide)).2 0xFFFF 0xAB 8 8
      (by decide) (by decide) (by decide) (Or.inl (by decide))⟩

/-- C3: for a signed field, `Value()` is exactly sign extension of the
extracted `width`-bit field (the two's-complement reading of the raw field),
and assigning the most-negative representable value `-2^(width-1)` reads back
as that same negative value. -/
theorem claim_C3_sign_extension (n p b : Nat)
    (hb : 0 < b) (hpb : p + b ≤ n) :
    (∀ s, BitField.ValueS n p b s =
      BitField.toSigned b (BitField.Value n p b s)) ∧
    (∀ s, s < 2 ^ n →
      BitField.ValueS n p b (BitField.AssignS n p b s (-(2 ^ (b - 1)))) =
        -(2 ^ (b - 1))) := by
  constructor
  · intro s
    exact BitField.valueS_eq_toSigned n p b s hb hpb
  · intro s hs
    exact BitField.valueS_assignS n p b s _ hb hpb hs (le_refl _)
      (neg_lt_self (by positivity))

/-- Witness for C3 at the signed width-4 field `BitField<3, 4, s32>`:
assigning -8 reads back as -8, and `Value()` is the sign extension of the
raw field. -/
theorem claim_C3_witness :
    BitField.ValueS 32 3 4 (BitField.AssignS 32 3 4 5 (-8)) = -8 ∧
    BitField.ValueS 32 3 4 5 = BitField.toSigned 4 (BitField.Value 32 3 4 5) := by
  constructor
  · have h := (claim_C3_sign_extension 32 3 4 (by decide) (by decide)).2 5 (by decide)
    norm_num at h
    exact h
  · exact (claim_C3_sign_extension 32 3 4 (by decide) (by decide)).1 5

/-- C4: the mask `(~0 >> (bitsize(T) - width)) << offset`, computed in the
unsigned counterpart of the storage type, is the word with exactly the
`width` bits starting at `offset` set. -/
theorem claim_C4_mask (n p b : Nat) (hb : 0 < b) (hpb : p + b ≤ n) :
    BitField.GetMask n p b = (2 ^ b - 1) <<< p ∧
    ∀ i, (BitField.GetMask n p b).testBit i = true ↔ (p ≤ i ∧ i < p + b) := by
  refine ⟨BitField.getMask_eq n p b (by omega), ?_⟩
  intro i
  rw [BitField.testBit_getMask n p b (by omega) i]
  simp

/-- Witness for C4 at `BitField<3, 4, u32>`: mask is `0x78`, whose set bits
are exactly positions 3..6. -/
theorem claim_C4_witness :
    BitField.GetMask 32 3 4 = (2 ^ 4 - 1) <<< 3 ∧
    ((BitField.GetMask 32 3 4).testBit 3 = true ↔ (3 ≤ 3 ∧ 3 < 3 + 4)) :=
  ⟨(claim_C4_mask 32 3 4 (by decide) (by decide)).1,
   (claim_C4_mask 32 3 4 (by decide) (by decide)).2 3⟩

/-- C10: for an unsigned field, `Assign(v)` followed by `Value()` returns the
low `width` bits `v % 2^width` for every storage-type value `v`, and the
excess high bits of `v` never leak into bits of the word outside
`[offset, offset+width)`. -/
theorem claim_C10_unsigned_truncation (n p b : Nat)
    (hb : 0 < b) (hpb : p + b ≤ n) :
    ∀ s v, s < 2 ^ n → v < 2 ^ n →
      BitField.Value n p b (BitField.Assign n p b s v) = v % 2 ^ b ∧
      ∀ i, (i < p ∨ p + b ≤ i) →
        (BitField.Assign n p b s v).testBit i = s.testBit i := by
  intro s v hs hv
  refine ⟨BitField.value_assign n p b s v hb hpb hs, ?_⟩
  intro i hi
  rw [BitField.testBit_assign n p b s v hpb hs i, if_neg (by omega)]

/-- Witness for C10: assigning 0xFFF to the 4-bit field at offset 3 of a
32-bit word reads back 0xF, and bit 7 of the word is untouched. -/
theorem claim_C10_witness :
    BitField.Value 32 3 4 (BitField.Assign 32 3 4 0 0xFFF) = 0xFFF % 2 ^ 4 ∧
    (BitField.Assign 32 3 4 0 0xFFF).testBit 7 = (0 : Nat).testBit 7 :=
  ⟨(claim_C10_unsigned_truncation 32 3 4 (by decide) (by decide) 0 0xFFF
      (by decide) (by decide)).1,
   (claim_C10_unsigned_truncation 32 3 4 (by decide) (by decide) 0 0xFFF
      (by decide) (by decide)).2 7 (Or.inr (by decide))⟩

/-- C5: the uniform-table register classifier partitions the 32-bit
register-number space into input `[0, 0x10)`, float-uniform `[0x10, 0x70)`,
int-uniform `[0x70, 0x74)`, bool-uniform `[0x78, 0x88)`, unknown otherwise,
and the index query returns the zero-based offset from the class's range
start, with sentinel -1 for unknown. -/
theorem claim_C5_register_classifier (reg : Nat) (h : reg < 2 ^ 32) :
    (reg < 0x10 →
      UniformInfo.Basic.GetType reg = RegisterType.Input ∧
      UniformInfo.Basic.GetIndex reg = (reg : Int)) ∧
    (0x10 ≤ reg → reg < 0x70 →
      UniformInfo.Basic.GetType reg = RegisterType.FloatUniform ∧
      UniformInfo.Basic.GetIndex reg = (reg : Int) - 0x10) ∧
    (0x70 ≤ reg → reg < 0x74 →
      UniformInfo.Basic.GetType reg = RegisterType.IntUniform ∧
      UniformInfo.Basic.GetIndex reg = (reg : Int) - 0x70) ∧
    (0x78 ≤ reg → reg < 0x88 →
      UniformInfo.Basic.GetType reg = RegisterType.BoolUniform ∧
      UniformInfo.Basic.GetIndex reg = (reg : Int) - 0x78) ∧
    ((0x74 ≤ reg ∧ reg < 0x78) ∨ 0x88 ≤ reg →
      UniformInfo.Basic.GetType reg = RegisterType.Unknown ∧
      UniformInfo.Basic.GetIndex reg = -1) := by
  refine ⟨?_, ?_, ?_, ?_, ?_⟩
  · intro h1
    have ht : UniformInfo.Basic.GetType reg = RegisterType.Input := by
      unfold UniformInfo.Basic.GetType
      rw [if_pos h1]
    exact ⟨ht, by unfold UniformInfo.Basic.GetIndex; rw [ht]⟩
  · intro h1 h2
    have ht : UniformInfo.Basic.GetType reg = RegisterType.FloatUniform := by
      unfold UniformInfo.Basic.GetType
      rw [if_neg (by omega), if_pos h2]
    exact ⟨ht, by unfold UniformInfo.Basic.GetIndex; rw [ht]⟩
  · intro h1 h2
    have ht : UniformInfo.Basic.GetType reg = RegisterType.IntUniform := by
      unfold UniformInfo.Basic.GetType
      rw [if_neg (by omega), if_neg (by omega), if_pos h2]
    exact ⟨ht, by unfold UniformInfo.Basic.GetIndex; rw [ht]⟩
  · intro h1 h2
    have ht : UniformInfo.Basic.GetType reg = RegisterType.BoolUniform := by
      unfold UniformInfo.Basic.GetType
      rw [if_neg (by omega), if_neg (by omega), if_neg (by omega), if_pos ⟨h1, h2⟩]
    exact ⟨ht, by unfold UniformInfo.Basic.GetIndex; rw [ht]⟩
  · intro h1
    have ht : UniformInfo.Basic.GetType reg = RegisterType.Unknown := by
      unfold UniformInfo.Basic.GetType
      rw [if_neg (by omega), if_neg (by omega), if_neg (by omega), if_neg (by omega)]
    exact ⟨ht, by unfold UniformInfo.Basic.GetIndex; rw [ht]⟩

/-- Witness for C5 at the boundary registers 0x0F, 0x10, 0x6F, 0x70, 0x77,
0x78, 0x87 and 0x88. -/
theorem claim_C5_witness :
    UniformInfo.Basic.GetType 0x0F = RegisterType.Input ∧
    UniformInfo.Basic.GetType 0x10 = RegisterType.FloatUniform ∧
    UniformInfo.Basic.GetIndex 0x10 = 0 ∧
    UniformInfo.Basic.GetType 0x6F = RegisterType.FloatUniform ∧
    UniformInfo.Basic.GetIndex 0x6F = 0x5F ∧
    UniformInfo.Basic.GetType 0x70 = RegisterType.IntUniform ∧
    UniformInfo.Basic.GetIndex 0x70 = 0 ∧
    UniformInfo.Basic.GetType 0x77 = RegisterType.Unknown ∧
    UniformInfo.Basic.GetIndex 0x77 = -1 ∧
    UniformInfo.Basic.GetType 0x78 = RegisterType.BoolUniform ∧
    UniformInfo.Basic.GetIndex 0x78 = 0 ∧
    UniformInfo.Basic.GetType 0x87 = RegisterType.BoolUniform ∧
    UniformInfo.Basic.GetIndex 0x87 = 0x0F ∧
    UniformInfo.Basic.GetType 0x88 = RegisterType.Unknown ∧
    UniformInfo.Basic.GetIndex 0x88 = -1 := by
  have h0F := (claim_C5_register_classifier 0x0F (by norm_num)).1 (by norm_num)
  have h10 := (claim_C5_register_classifier 0x10 (by norm_num)).2.1 (by norm_num) (by norm_num)
  have h6F := (claim_C5_register_classifier 0x6F (by norm_num)).2.1 (by norm_num) (by norm_num)
  have h70 := (claim_C5_register_classifier 0x70 (by norm_num)).2.2.1 (by norm_num) (by norm_num)
  have h77 := (claim_C5_register_classifier 0x77 (by norm_num)).2.2.2.2 (Or.inl (by norm_num))
  have h78 := (claim_C5_register_classifier 0x78 (by norm_num)).2.2.2.1 (by norm_num) (by norm_num)
  have h87 := (claim_C5_register_classifier 0x87 (by norm_num)).2.2.2.1 (by norm_num) (by norm_num)
  have h88 := (claim_C5_register_classifier 0x88 (by norm_num)).2.2.2.2 (Or.inr (by norm_num))
  refine ⟨h0F.1, h10.1, ?_, h6F.1, ?_, h70.1, ?_, h77.1, h77.2, h78.1, ?_, h87.1, ?_,
    h88.1, h88.2⟩
  · rw [h10.2]; norm_num
  · rw [h6F.2]; norm_num
  · rw [h70.2]; norm_num
  · rw [h78.2]; norm_num
  · rw [h87.2]; norm_num

/-- C6: the semantic-name query is total: each of the 8 defined semantic-type
values 0,1,2,3,4,5,6,8 maps to its fixed tag, and every other 16-bit value,
in particular the gap value 7, maps to the generic `"out.unk"` tag. -/
theorem claim_C6_semantic_name_total (t : Nat) (ht : t < 2 ^ 16)
    (hgap : t ∉ ([0, 1, 2, 3, 4, 5, 6, 8] : List Nat)) :
    OutputRegisterInfo.GetSemanticName 0 = "out.pos" ∧
    OutputRegisterInfo.GetSemanticName 1 = "out.quat" ∧
    OutputRegisterInfo.GetSemanticName 2 = "out.col" ∧
    OutputRegisterInfo.GetSemanticName 3 = "out.tex0" ∧
    OutputRegisterInfo.GetSemanticName 4 = "out.texw" ∧
    OutputRegisterInfo.GetSemanticName 5 = "out.tex1" ∧
    OutputRegisterInfo.GetSemanticName 6 = "out.tex2" ∧
    OutputRegisterInfo.GetSemanticName 8 = "out.view" ∧
    OutputRegisterInfo.GetSemanticName 7 = "out.unk" ∧
    OutputRegisterInfo.GetSemanticName t = "out.unk" := by
  simp only [List.mem_cons, List.not_mem_nil, or_false, not_or] at hgap
  obtain ⟨g0, g1, g2, g3, g4, g5, g6, g8⟩ := hgap
  refine ⟨rfl, rfl, rfl, rfl, rfl, rfl, rfl, rfl, rfl, ?_⟩
  unfold OutputRegisterInfo.GetSemanticName
  rw [if_neg g0, if_neg g1, if_neg g2, if_neg g3, if_neg g4, if_neg g5,
    if_neg g6, if_neg g8]

/-- Witness for C6 at the gap value 7 and an arbitrary undefined value 0x1234. -/
theorem claim_C6_witness :
    OutputRegisterInfo.GetSemanticName 0x1234 = "out.unk" :=
  (claim_C6_semantic_name_total 0x1234 (by norm_num) (by decide)).2.2.2.2.2.2.2.2.2

/-- C7: the component-mask rendering returns exactly the letters of the
subset of x,y,z,w whose bits (bit 0 = x through bit 3 = w) are set in the
4-bit mask, in the fixed order x,y,z,w; in particular mask 0b1010 yields
"yw", 0b1111 yields "xyzw", and 0 yields the empty string. -/
theorem claim_C7_component_mask_letters (m : Nat) (hm : m < 16) :
    OutputRegisterInfo.GetMask m = OutputRegisterInfo.maskLettersSpec m ∧
    OutputRegisterInfo.GetMask 0b1010 = "yw" ∧
    OutputRegisterInfo.GetMask 0b1111 = "xyzw" ∧
    OutputRegisterInfo.GetMask 0 = "" := by
  refine ⟨?_, rfl, rfl, rfl⟩
  interval_cases m <;> rfl

/-- Witness for C7 at mask 0b1010. -/
theorem claim_C7_witness :
    OutputRegisterInfo.GetMask 0b1010 = OutputRegisterInfo.maskLettersSpec 0b1010 :=
  (claim_C7_component_mask_letters 0b1010 (by decide)).1

/-- C8: laid out without padding, the DVLB container header is exactly 8
bytes, the DVLP program header exactly 28 bytes, and the DVLE shader-variant
header exactly 64 bytes. -/
theorem claim_C8_header_sizes :
    packedSize DVLBHeader.fieldSizes = 8 ∧
    packedSize DVLPHeader.fieldSizes = 28 ∧
    packedSize DVLEHeader.fieldSizes = 64 :=
  ⟨rfl, rfl, rfl⟩

/-- C9: in every state of the 64-bit output-register word, the 4-bit
`component_mask` field (bits 32-36) equals the low 4 bits of the 32-bit
`descriptor` field (bits 32-64); assigning the descriptor is reflected in the
mask, and assigning the mask is reflected in the descriptor's low 4 bits
while leaving the descriptor's remaining bits unchanged. -/
theorem claim_C9_descriptor_mask_alias (hex : Nat) (hh : hex < 2 ^ 64) :
    OutputRegisterInfo.component_mask hex =
      OutputRegisterInfo.descriptor hex % 2 ^ 4 ∧
    (∀ d, OutputRegisterInfo.component_mask
        (OutputRegisterInfo.assignDescriptor hex d) = d % 2 ^ 4) ∧
    (∀ m, OutputRegisterInfo.descriptor
        (OutputRegisterInfo.assignComponentMask hex m) % 2 ^ 4 = m % 2 ^ 4 ∧
      OutputRegisterInfo.descriptor
          (OutputRegisterInfo.assignComponentMask hex m) >>> 4 =
        OutputRegisterInfo.descriptor hex >>> 4) := by
  refine ⟨?_, ?_, ?_⟩
  · exact BitField.value_sub 64 32 32 4 hex (by norm_num) (by norm_num)
  · intro d
    unfold OutputRegisterInfo.component_mask OutputRegisterInfo.assignDescriptor
    rw [BitField.value_sub 64 32 32 4 _ (by norm_num) (by norm_num),
      BitField.value_assign 64 32 32 hex d (by norm_num) (by norm_num) hh]
    exact Nat.mod_mod_of_dvd d (by norm_num)
  · intro m
    constructor
    · rw [show OutputRegisterInfo.descriptor
          (OutputRegisterInfo.assignComponentMask hex m) % 2 ^ 4 =
          OutputRegisterInfo.component_mask
            (OutputRegisterInfo.assignComponentMask hex m) from
        (BitField.value_sub 64 32 32 4 _ (by norm_num) (by norm_num)).symm]
      exact BitField.value_assign 64 32 4 hex m (by norm_num) (by norm_num) hh
    · unfold OutputRegisterInfo.descriptor OutputRegisterInfo.assignComponentMask
      rw [BitField.value_eq_shift_and 64 32 32 _ (by norm_num),
        BitField.value_eq_shift_and 64 32 32 hex (by norm_num)]
      apply Nat.eq_of_testBit_eq
      intro i
      simp only [Nat.testBit_shiftRight, Nat.testBit_and, Nat.testBit_two_pow_sub_one]
      rw [BitField.testBit_assign 64 32 4 hex m (by norm_num) hh (32 + (4 + i)),
        if_neg (by omega)]

/-- Witness for C9 on the word with descriptor 0xDEADBEEF: the component mask
reads 0xF, the low 4 bits of the descriptor. -/
theorem claim_C9_witness :
    OutputRegisterInfo.component_mask
      (OutputRegisterInfo.assignDescriptor 0 0xDEADBEEF) = 0xDEADBEEF % 2 ^ 4 :=
  (claim_C9_descriptor_mask_alias 0 (by norm_num)).2.1 0xDEADBEEF
